import Mathlib

/-!
Verification development for the image-edit / chat application (`src/App.tsx`).

The development shallowly embeds the core of the application:

* the stream segmentation performed inside `handleChatSubmit`
  (`responseText.split(/(```[\s\S]*?```)/g)` followed by per-part rendering),
* the per-part classification (`CodeBlock` vs raw `<pre><code>` vs prose lines),
* the edit-history hook surface (`useImageHistory`, modelled from the spec as
  its source file is not part of the repository snapshot),
* the `handleGenerate`, `handleGenerateMultiView`, `startNewChat` and
  `handleChatSubmit` handlers as pure state transformers.

Strings are embedded as `List Char`; the collaborator services
(`geminiService`) are parameters of the handlers (`Except` for fallible calls,
a list of chunks for the chat stream).
-/

namespace App

/-- Rendered content block, as produced by the per-part rendering inside
`handleChatSubmit`: a `CodeBlock` component, a raw `<pre><code>` element for a
part that starts with a fence but has no inner regex match, or prose rendered
as one `<p>` per line. -/
inductive ContentBlock : Type where
  | Prose (lines : List (List Char))
  | Code (language source : List Char) (runnable : Bool)
  | RawFence (text : List Char)
deriving DecidableEq

/-- The three-backtick fence, as a list of characters. -/
def fenceChars : List Char := ['`', '`', '`']

/-- Whether the text begins with three backticks (JS `part.startsWith('\x60\x60\x60')`). -/
def startsFence : List Char → Bool
  | a :: b :: c :: _ => a == '`' && b == '`' && c == '`'
  | _ => false

/-- Scan for the first occurrence of a triple-backtick fence: returns the text
before the first fence and, when a fence occurs, the remaining text starting at
that fence. -/
def splitAtFence : List Char → List Char × Option (List Char)
  | [] => ([], none)
  | c :: cs =>
    if startsFence (c :: cs) then ([], some (c :: cs))
    else
      let r := splitAtFence cs
      (c :: r.1, r.2)

/-- JS `part.split('\n')`: split on every newline, keeping empty lines; the
empty string yields one empty line. -/
def splitLines : List Char → List (List Char)
  | [] => [[]]
  | c :: cs =>
    if c == '\n' then [] :: splitLines cs
    else
      match splitLines cs with
      | [] => [[c]]
      | l :: ls => (c :: l) :: ls

/-- JS regex `\w`: ASCII letters, digits, underscore. -/
def isWordChar (c : Char) : Bool := c.isAlphanum || c == '_'

/-- ASCII lowercasing of a string (JS `language.toLowerCase()` on the
word-character language tags that occur here). -/
def lowerList (l : List Char) : List Char := l.map Char.toLower

/-- Attempt the regex `\x60\x60\x60(\w*)\n([\s\S]+?)\x60\x60\x60` at the start of the
text: an opening fence, a greedy word-character language tag, a newline, a lazy
non-empty body ending at the next fence. Returns the two capture groups. -/
def matchFenceAt (cs : List Char) : Option (List Char × List Char) :=
  if startsFence cs then
    let rest := cs.drop 3
    match rest.dropWhile isWordChar with
    | '\n' :: b :: body2 =>
      match splitAtFence body2 with
      | (mid, some _) => some (rest.takeWhile isWordChar, b :: mid)
      | (_, none) => none
    | _ => none
  else none

/-- JS `part.match(/\x60\x60\x60(\w*)\n([\s\S]+?)\x60\x60\x60/)`: the leftmost
position at which the fence pattern matches, scanning left to right. -/
def innerMatch : List Char → Option (List Char × List Char)
  | [] => none
  | c :: cs =>
    match matchFenceAt (c :: cs) with
    | some r => some r
    | none => innerMatch cs

/-- Per-part rendering from `handleChatSubmit`: a part starting with three
backticks is rendered via the inner regex match as a `CodeBlock` (runnable iff
the language lowercases to "html", from the `CodeBlock` component) or, with no
match, as a raw `<pre><code>` element; any other part becomes prose lines. -/
def renderPart (p : List Char) : ContentBlock :=
  if startsFence p then
    match innerMatch p with
    | some (lang, src) => ContentBlock.Code lang src (lowerList lang == "html".toList)
    | none => ContentBlock.RawFence p
  else
    ContentBlock.Prose (splitLines p)

/-- Fuelled worker for `fenceSplit`.  One step finds the first fence and its
closing fence (the next fence at least three characters later, per the lazy
quantifier) and emits the text before the match and the matched span; when no
complete span exists the whole remaining text is one part. -/
def fenceSplitF : Nat → List Char → List (List Char)
  | 0, cs => [cs]
  | fuel + 1, cs =>
    match splitAtFence cs with
    | (_, none) => [cs]
    | (pre, some r) =>
      match splitAtFence (r.drop 3) with
      | (_, none) => [cs]
      | (mid, some r2) =>
        pre :: (fenceChars ++ mid ++ fenceChars) :: fenceSplitF fuel (r2.drop 3)

/-- JS `responseText.split(/(\x60\x60\x60[\s\S]*?\x60\x60\x60)/g)`: the list of
parts alternates text-between-matches and captured complete fenced spans,
retaining empty between-parts.  The fuel `cs.length` dominates the recursion
depth (each step consumes at least six characters). -/
def fenceSplit (cs : List Char) : List (List Char) := fenceSplitF cs.length cs

/-- The segmentation of `handleChatSubmit`: split the accumulated text on
complete fenced spans and render each part. -/
def segment (cs : List Char) : List ContentBlock := (fenceSplit cs).map renderPart

/-! ### Segmentation as described by the specification

`segmentClaim` follows the specification's words for the split pattern: the
split boundaries are complete fenced blocks of the shape "an opening fence of
three backticks, an optional language tag, a newline, arbitrary content
(non-greedy), then a closing triple-backtick fence"; segments fully matching
that pattern become `Code` blocks, all other segments become prose lines. -/

/-- Attempt, at the start of the text, the specification's fence pattern
(opening fence, optional word-character language tag, newline, non-greedy
content, closing fence); returns the language, content and the text after the
closing fence. -/
def claimFenceAt (cs : List Char) : Option (List Char × List Char × List Char) :=
  if startsFence cs then
    let rest := cs.drop 3
    match rest.dropWhile isWordChar with
    | '\n' :: body =>
      match splitAtFence body with
      | (mid, some r) => some (rest.takeWhile isWordChar, mid, r.drop 3)
      | (_, none) => none
    | _ => none
  else none

/-- Scan for the leftmost occurrence of the specification's fence pattern:
returns the text before it and, when found, the match data. -/
def claimScan : List Char → List Char × Option (List Char × List Char × List Char)
  | [] => ([], none)
  | c :: cs =>
    match claimFenceAt (c :: cs) with
    | some r => ([], some r)
    | none =>
      let q := claimScan cs
      (c :: q.1, q.2)

/-- Fuelled worker for `segmentClaim`. -/
def segmentClaimF : Nat → List Char → List ContentBlock
  | 0, cs => [ContentBlock.Prose (splitLines cs)]
  | fuel + 1, cs =>
    match claimScan cs with
    | (p, none) => [ContentBlock.Prose (splitLines p)]
    | (p, some (lang, src, rest)) =>
      ContentBlock.Prose (splitLines p) ::
        ContentBlock.Code lang src (lowerList lang == "html".toList) ::
          segmentClaimF fuel rest

/-- Segmentation as described by the claim and specification: split on the
pattern "three backticks, optional language tag, newline, non-greedy content,
closing three backticks"; fully matching segments become `Code` blocks with the
described language and source, every other segment is prose lines. -/
def segmentClaim (cs : List Char) : List ContentBlock := segmentClaimF cs.length cs

/-! ### Segmentation as described by the amended claim

The amended claim states that the split pattern is just a pair of
triple-backtick fences with lazily matched arbitrary content between them (no
language tag or newline required), and that each split-out segment is rendered
by `renderPart`.  `segmentAmended` follows those words with an independent
leftmost-match scanner, so that proving it equal to `segment` also verifies
that the first-fence pairing of `fenceSplit` implements leftmost lazy
matching. -/

/-- Attempt, at the start of the text, the amended claim's split pattern: a
fence, lazy (possibly empty) content, and the next fence.  Returns the matched
span and the text after it. -/
def amendFenceAt (cs : List Char) : Option (List Char × List Char) :=
  if startsFence cs then
    match splitAtFence (cs.drop 3) with
    | (mid, some r2) => some (fenceChars ++ mid ++ fenceChars, r2.drop 3)
    | (_, none) => none
  else none

/-- Scan for the leftmost occurrence of the amended claim's split pattern. -/
def amendScan : List Char → List Char × Option (List Char × List Char)
  | [] => ([], none)
  | c :: cs =>
    match amendFenceAt (c :: cs) with
    | some r => ([], some r)
    | none =>
      let q := amendScan cs
      (c :: q.1, q.2)

/-- Fuelled worker for `segmentAmended`. -/
def segmentAmendedF : Nat → List Char → List ContentBlock
  | 0, cs => [renderPart cs]
  | fuel + 1, cs =>
    match amendScan cs with
    | (p, none) => [renderPart p]
    | (p, some (seg, rest)) => renderPart p :: renderPart seg :: segmentAmendedF fuel rest

/-- Segmentation as described by the amended claim: split at each leftmost
complete (lazily matched) pair of triple-backtick fences and render every
segment with `renderPart`. -/
def segmentAmended (cs : List Char) : List ContentBlock := segmentAmendedF cs.length cs

/-- A text is a clean fence body when no triple-backtick occurs inside it, nor
straddling its right edge (it does not end in backticks that would merge with a
following fence): scanning it extended by two backticks finds no fence.  Such a
body between two fences is exactly what the lazy split captures. -/
def bodyOk (m : List Char) : Prop := (splitAtFence (m ++ ['`', '`'])).2 = none

instance decBodyOk (m : List Char) : Decidable (bodyOk m) :=
  inferInstanceAs (Decidable ((splitAtFence (m ++ ['`', '`'])).2 = none))

/-- A text is dead when it contains no complete fence pair: either it has no
fence at all, or its first fence is never closed.  The trailing part of a split
is always dead. -/
def deadTail (cs : List Char) : Prop :=
  ∀ p r, splitAtFence cs = (p, some r) → (splitAtFence (r.drop 3)).2 = none

/-! ### Image editing state

`useImageHistory` is imported by `App.tsx` but its source file is not part of
the repository snapshot, so the hook surface is modelled from the
specification.  The handlers `handleGenerate` and `handleGenerateMultiView`
are embedded from the source, with the collaborator call
(`geminiService.editImage` / `generateMultiView`) passed in as an `Except`
outcome. -/

/-- An image: mime type plus base64 payload (spec `ImageState`). -/
structure ImageState : Type where
  mimeType : List Char
  data : List Char
deriving DecidableEq

/-- Modelled from the spec: `useImageHistory` (not under `src/`) owns the
ordered list of image states; `original`, `current`, `canUndo` and
`isImageLoaded` are the derived views the spec's invariant prescribes. -/
structure EditHistory : Type where
  entries : List ImageState
deriving DecidableEq

/-- Modelled from the spec: `reset(image)` replaces the entire history with a
single-entry history. -/
def EditHistory.reset (image : ImageState) : EditHistory := ⟨[image]⟩

/-- Modelled from the spec: `push(image)` appends an entry. -/
def EditHistory.push (h : EditHistory) (image : ImageState) : EditHistory :=
  ⟨h.entries ++ [image]⟩

/-- Modelled from the spec: `canUndo = entries.length > 1`. -/
def EditHistory.canUndo (h : EditHistory) : Bool := 1 < h.entries.length

/-- Modelled from the spec: `undo()` removes the last entry when `canUndo`,
otherwise it is a no-op. -/
def EditHistory.undo (h : EditHistory) : EditHistory :=
  if h.canUndo then ⟨h.entries.dropLast⟩ else h

/-- Modelled from the spec: `current` is the last entry. -/
def EditHistory.current (h : EditHistory) : Option ImageState := h.entries.getLast?

/-- Modelled from the spec: `original` is the first entry. -/
def EditHistory.original (h : EditHistory) : Option ImageState := h.entries.head?

/-- Modelled from the spec: `isImageLoaded = entries.length > 0`. -/
def EditHistory.isImageLoaded (h : EditHistory) : Bool := 0 < h.entries.length

/-- Push a whole sequence of images in order. -/
def pushAll (h : EditHistory) (l : List ImageState) : EditHistory :=
  l.foldl EditHistory.push h

/-- Fuelled worker for `undoAll`. -/
def undoAllF : Nat → EditHistory → EditHistory
  | 0, h => h
  | n + 1, h => if h.canUndo then undoAllF n h.undo else h

/-- Repeat `undo` until `canUndo` is false (each `undo` shortens the history,
so `entries.length` steps always suffice). -/
def undoAll (h : EditHistory) : EditHistory := undoAllF h.entries.length h

/-- The application state touched by the edit handlers: the history hook, the
prompt, the monotone mask-clear counter, the errors surfaced so far via
`handleShowError`, and the multi-view modal images. -/
structure AppState : Type where
  history : EditHistory
  prompt : List Char
  clearMaskSignal : Nat
  errors : List (List Char)
  multiViewImages : List ImageState
deriving DecidableEq

/-- JS `!prompt.trim()`: the prompt is blank when every character is
whitespace. -/
def isBlank (p : List Char) : Bool := p.all Char.isWhitespace

/-- Error message shown when an edit is requested with no image. -/
def noImageMsg : List Char := "Please upload an image first to apply an edit.".toList

/-- Fallback error message for a failed edit call. -/
def unknownEditMsg : List Char := "An unknown error occurred during editing.".toList

/-- Fallback error message for a failed multi-view call. -/
def multiViewFailMsg : List Char := "Failed to generate multi-view images.".toList

/-- The `handleGenerate` handler (`App.tsx` lines 127-144) as a pure state
transformer.  The `collab` argument is the outcome of
`geminiService.editImage`; the returned flag records whether the collaborator
was invoked.  A blank prompt returns silently; a missing image surfaces an
error; a successful call pushes the result, clears the prompt and bumps the
mask-clear signal; a failed call surfaces the error message (or the fallback
when it is empty) and leaves the history untouched. -/
def handleGenerate (s : AppState) (collab : Except (List Char) ImageState) :
    AppState × Bool :=
  if isBlank s.prompt then (s, false)
  else
    match s.history.current with
    | none => ({ s with errors := s.errors ++ [noImageMsg] }, false)
    | some _ =>
      match collab with
      | Except.ok edited =>
        ({ s with
            history := s.history.push edited
            prompt := []
            clearMaskSignal := s.clearMaskSignal + 1 }, true)
      | Except.error msg =>
        ({ s with errors := s.errors ++ [if msg = [] then unknownEditMsg else msg] }, true)

/-- The `handleGenerateMultiView` handler (`App.tsx` lines 172-184) as a pure
state transformer; `collab` is the outcome of
`geminiService.generateMultiView`.  With no image it returns silently; on
success the returned images are handed unchanged to the modal state; on
failure the error is surfaced; the history is never touched. -/
def handleGenerateMultiView (s : AppState)
    (collab : Except (List Char) (List ImageState)) : AppState :=
  match s.history.current with
  | none => s
  | some _ =>
    match collab with
    | Except.ok images => { s with multiViewImages := images }
    | Except.error msg =>
      { s with errors := s.errors ++ [if msg = [] then multiViewFailMsg else msg] }

/-! ### Chat session -/

/-- Message author. -/
inductive Role : Type where
  | user
  | model
deriving DecidableEq

/-- The rendered content of a chat message: a plain paragraph (welcome text,
user text, the empty placeholder), the block list of a streaming model reply,
or the red error paragraph. -/
inductive Rendered : Type where
  | text (s : List Char)
  | blocks (bs : List ContentBlock)
  | errorText (s : List Char)
deriving DecidableEq

/-- One entry of the conversation log. -/
structure ChatMessage : Type where
  role : Role
  rendered : Rendered
deriving DecidableEq

/-- The welcome text of `startNewChat`. -/
def welcomeText : List Char :=
  "Hello! I'm your AI creative partner. How can I help you today? You can attach images, documents, or code for analysis.".toList

/-- The conversation log produced by `startNewChat` (`App.tsx` lines 187-191):
a fresh session handle and a single model welcome entry. -/
def startChatLog : List ChatMessage := [⟨Role.model, Rendered.text welcomeText⟩]

/-- The fixed error paragraph appended by `handleChatSubmit`'s catch branch. -/
def chatErrText : List Char := "Sorry, I encountered an error.".toList

/-- The error entry appended on stream failure. -/
def chatErrorEntry : ChatMessage := ⟨Role.model, Rendered.errorText chatErrText⟩

/-- The per-chunk functional update of `handleChatSubmit` (`App.tsx` lines
240-244): replace the rendered content of the last entry of the current log.
On an empty log the JS assignment to index `-1` leaves the array contents
unchanged. -/
def setLastRendered (prev : List ChatMessage) (r : Rendered) : List ChatMessage :=
  match prev with
  | [] => []
  | [m] => [⟨m.role, r⟩]
  | m :: rest => m :: setLastRendered rest r

/-- Fold the stream chunks: each chunk is appended to the accumulated response
text and the last log entry is re-rendered from the segmentation of the whole
accumulated text. -/
def streamRun (msgs : List ChatMessage) (acc : List Char) :
    List (List Char) → List ChatMessage × List Char
  | [] => (msgs, acc)
  | c :: cs =>
    streamRun (setLastRendered msgs (Rendered.blocks (segment (acc ++ c)))) (acc ++ c) cs

/-- Concatenation of all stream chunks in arrival order. -/
def joinChunks (chunks : List (List Char)) : List Char := chunks.foldl (· ++ ·) []

/-- The `handleChatSubmit` handler (`App.tsx` lines 205-252) as a pure
transformer of the conversation log, for a submission whose stream was
obtained and then delivered `chunks` and finally either completed or errored:
append the user entry, append the empty placeholder model entry, fold the
chunks through the segmentation, and on a mid-stream error append the fixed
error entry. -/
def handleChatSubmit (msgs : List ChatMessage) (message : List Char)
    (chunks : List (List Char)) (errored : Bool) : List ChatMessage :=
  let afterUser := msgs ++ [⟨Role.user, Rendered.text message⟩]
  let afterPlaceholder := afterUser ++ [⟨Role.model, Rendered.text []⟩]
  let streamed := (streamRun afterPlaceholder [] chunks).1
  if errored then streamed ++ [chatErrorEntry] else streamed

/-! ### Lemmas about the fence scanner -/

theorem startsFence_shape (l : List Char) (h : startsFence l = true) :
    ∃ t, l = '`' :: '`' :: '`' :: t := by
  rcases l with _ | ⟨a, _ | ⟨b, _ | ⟨c, t⟩⟩⟩ <;> simp [startsFence] at h
  exact ⟨t, by rw [h.1.1, h.1.2, h.2]⟩

theorem startsFence_append (a b c : Char) (t s : List Char) :
    startsFence ((a :: b :: c :: t) ++ s) = startsFence (a :: b :: c :: t) := rfl

theorem startsFence_pad_two (c : Char) (l m : List Char) :
    startsFence ((c :: l) ++ '`' :: '`' :: m) = startsFence ((c :: l) ++ ['`', '`']) := by
  rcases l with _ | ⟨d, _ | ⟨e, t⟩⟩ <;> rfl

theorem splitAtFence_cons (c : Char) (cs : List Char) :
    splitAtFence (c :: cs) =
      if startsFence (c :: cs) then ([], some (c :: cs))
      else (c :: (splitAtFence cs).1, (splitAtFence cs).2) := rfl

theorem splitAtFence_none_eq :
    ∀ cs : List Char, (splitAtFence cs).2 = none → (splitAtFence cs).1 = cs
  | [], _ => rfl
  | c :: cs, h => by
    cases hf : startsFence (c :: cs) with
    | true => rw [splitAtFence_cons, if_pos hf] at h; simp at h
    | false =>
      rw [splitAtFence_cons, if_neg (by simp [hf])] at h ⊢
      simpa using splitAtFence_none_eq cs h

theorem splitAtFence_some_join :
    ∀ (cs p r : List Char), splitAtFence cs = (p, some r) →
      p ++ r = cs ∧ startsFence r = true
  | [], p, r, h => by simp [splitAtFence] at h
  | c :: cs, p, r, h => by
    cases hf : startsFence (c :: cs) with
    | true =>
      rw [splitAtFence_cons, if_pos hf] at h
      simp only [Prod.mk.injEq, Option.some.injEq] at h
      obtain ⟨hp, hr⟩ := h
      subst hp; subst hr
      exact ⟨rfl, hf⟩
    | false =>
      rw [splitAtFence_cons, if_neg (by simp [hf])] at h
      simp only [Prod.mk.injEq] at h
      obtain ⟨hp, hr⟩ := h
      have ih := splitAtFence_some_join cs (splitAtFence cs).1 r (by rw [← hr])
      subst hp
      exact ⟨by rw [List.cons_append, ih.1], ih.2⟩

theorem splitAtFence_cons_none (c : Char) (cs : List Char) :
    (splitAtFence (c :: cs)).2 = none ↔
      startsFence (c :: cs) = false ∧ (splitAtFence cs).2 = none := by
  rw [splitAtFence_cons]
  cases hf : startsFence (c :: cs) <;> simp [hf]

theorem startsFence_false_of_none (cs : List Char)
    (h : (splitAtFence cs).2 = none) : startsFence cs = false := by
  cases cs with
  | nil => rfl
  | cons c cs => exact ((splitAtFence_cons_none c cs).mp h).1

theorem splitAtFence_none_suffix :
    ∀ (x y : List Char), (splitAtFence x).2 = none → y <:+ x →
      (splitAtFence y).2 = none
  | [], y, _, hy => by rw [List.suffix_nil.mp hy]; rfl
  | c :: cs, y, h, hy => by
    rcases List.suffix_cons_iff.mp hy with hEq | hTail
    · rw [hEq]; exact h
    · exact splitAtFence_none_suffix cs y ((splitAtFence_cons_none c cs).mp h).2 hTail

theorem splitAtFence_suffix_fence :
    ∀ (cs p r y : List Char), splitAtFence cs = (p, some r) → y <:+ cs →
      startsFence y = true → y <:+ r
  | [], p, r, y, h, _, _ => by simp [splitAtFence] at h
  | c :: cs, p, r, y, h, hy, hfy => by
    cases hf : startsFence (c :: cs) with
    | true =>
      rw [splitAtFence_cons, if_pos hf] at h
      simp only [Prod.mk.injEq, Option.some.injEq] at h
      rw [← h.2]; exact hy
    | false =>
      rw [splitAtFence_cons, if_neg (by simp [hf])] at h
      simp only [Prod.mk.injEq] at h
      rcases List.suffix_cons_iff.mp hy with hEq | hTail
      · rw [hEq] at hfy; rw [hfy] at hf; cases hf
      · exact splitAtFence_suffix_fence cs (splitAtFence cs).1 r y (by rw [← h.2]) hTail hfy

theorem splitAtFence_append_some :
    ∀ (t p r s : List Char), splitAtFence t = (p, some r) →
      splitAtFence (t ++ s) = (p, some (r ++ s))
  | [], p, r, s, h => by simp [splitAtFence] at h
  | c :: cs, p, r, s, h => by
    cases hf : startsFence (c :: cs) with
    | true =>
      rw [splitAtFence_cons, if_pos hf] at h
      simp only [Prod.mk.injEq, Option.some.injEq] at h
      obtain ⟨hp, hr⟩ := h
      subst hp; subst hr
      obtain ⟨u, hu⟩ := startsFence_shape _ hf
      rw [hu]
      simp only [List.cons_append]
      rw [splitAtFence_cons, if_pos (by simp [startsFence])]
    | false =>
      rw [splitAtFence_cons, if_neg (by simp [hf])] at h
      simp only [Prod.mk.injEq] at h
      obtain ⟨hp, hr⟩ := h
      have hcs : splitAtFence cs = ((splitAtFence cs).1, some r) := by rw [← hr]
      have hlen : 3 ≤ cs.length := by
        obtain ⟨hjoin, hfr⟩ := splitAtFence_some_join cs _ _ hcs
        obtain ⟨u, hu⟩ := startsFence_shape _ hfr
        rw [← hjoin, hu]
        simp only [List.length_append, List.length_cons]
        omega
      have hfappend : startsFence (c :: (cs ++ s)) = false := by
        rcases cs with _ | ⟨a, _ | ⟨b, u⟩⟩
        · simp at hlen
        · simp at hlen
        · exact hf
      have ih := splitAtFence_append_some cs (splitAtFence cs).1 r s hcs
      rw [List.cons_append, splitAtFence_cons, if_neg (by simp [hfappend])]
      rw [ih, ← hp]

theorem splitAtFence_len6 (cs p r mid r2 : List Char)
    (h1 : splitAtFence cs = (p, some r))
    (h2 : splitAtFence (r.drop 3) = (mid, some r2)) :
    (r2.drop 3).length + 6 ≤ cs.length := by
  obtain ⟨hj1, hf1⟩ := splitAtFence_some_join cs p r h1
  obtain ⟨hj2, hf2⟩ := splitAtFence_some_join (r.drop 3) mid r2 h2
  obtain ⟨u, hu⟩ := startsFence_shape r hf1
  obtain ⟨v, hv⟩ := startsFence_shape r2 hf2
  have hdropu : r.drop 3 = u := by rw [hu]; rfl
  have hdropv : r2.drop 3 = v := by rw [hv]; rfl
  have hcs : cs.length = p.length + r.length := by rw [← hj1]; simp
  have hru : r.length = u.length + 3 := by rw [hu]; simp
  have humr : u.length = mid.length + r2.length := by
    rw [hdropu] at hj2
    rw [← hj2]; simp
  have hrv : r2.length = v.length + 3 := by rw [hv]; simp
  rw [hdropv]
  omega

theorem fenceSplitF_ne_nil : ∀ (fuel : Nat) (cs : List Char), fenceSplitF fuel cs ≠ []
  | 0, cs => by simp [fenceSplitF]
  | fuel + 1, cs => by
    rcases h1 : splitAtFence cs with ⟨p, _ | r⟩
    · simp [fenceSplitF, h1]
    · rcases h2 : splitAtFence (r.drop 3) with ⟨mid, _ | r2⟩ <;>
        simp [fenceSplitF, h1, h2]

theorem fenceSplitF_irrel :
    ∀ (f1 f2 : Nat) (cs : List Char), cs.length ≤ f1 → cs.length ≤ f2 →
      fenceSplitF f1 cs = fenceSplitF f2 cs
  | 0, f2, cs, h1, _ => by
    have : cs = [] := List.length_eq_zero.mp (Nat.le_zero.mp h1)
    subst this
    cases f2 <;> simp [fenceSplitF, splitAtFence]
  | f1 + 1, 0, cs, _, h2 => by
    have : cs = [] := List.length_eq_zero.mp (Nat.le_zero.mp h2)
    subst this
    simp [fenceSplitF, splitAtFence]
  | f1 + 1, f2 + 1, cs, h1, h2 => by
    rcases hs1 : splitAtFence cs with ⟨p, _ | r⟩
    · simp [fenceSplitF, hs1]
    · rcases hs2 : splitAtFence (r.drop 3) with ⟨mid, _ | r2⟩
      · simp [fenceSplitF, hs1, hs2]
      · have hlen := splitAtFence_len6 cs p r mid r2 hs1 hs2
        have ih := fenceSplitF_irrel f1 f2 (r2.drop 3) (by omega) (by omega)
        simp [fenceSplitF, hs1, hs2, ih]

theorem fenceSplit_eq_none (cs : List Char) (h : (splitAtFence cs).2 = none) :
    fenceSplit cs = [cs] := by
  cases hn : cs.length with
  | zero => simp [fenceSplit, hn, fenceSplitF]
  | succ n =>
    rcases hs : splitAtFence cs with ⟨p, q⟩
    rw [hs] at h
    simp only at h
    subst h
    simp [fenceSplit, hn, fenceSplitF, hs]

theorem fenceSplit_eq_open (cs p r : List Char) (h1 : splitAtFence cs = (p, some r))
    (h2 : (splitAtFence (r.drop 3)).2 = none) : fenceSplit cs = [cs] := by
  cases hn : cs.length with
  | zero =>
    have : cs = [] := List.length_eq_zero.mp hn
    subst this
    simp [splitAtFence] at h1
  | succ n =>
    rcases hs : splitAtFence (r.drop 3) with ⟨mid, q⟩
    rw [hs] at h2
    simp only at h2
    subst h2
    simp [fenceSplit, hn, fenceSplitF, h1, hs]

theorem fenceSplit_eq_step (cs p r mid r2 : List Char)
    (h1 : splitAtFence cs = (p, some r))
    (h2 : splitAtFence (r.drop 3) = (mid, some r2)) :
    fenceSplit cs =
      p :: (fenceChars ++ mid ++ fenceChars) :: fenceSplit (r2.drop 3) := by
  have hlen := splitAtFence_len6 cs p r mid r2 h1 h2
  cases hn : cs.length with
  | zero => omega
  | succ n =>
    have : fenceSplitF (n + 1) cs =
        p :: (fenceChars ++ mid ++ fenceChars) :: fenceSplitF n (r2.drop 3) := by
      simp [fenceSplitF, h1, h2]
    rw [fenceSplit, hn, this, fenceSplit]
    rw [fenceSplitF_irrel n (r2.drop 3).length (r2.drop 3) (by omega) (by omega)]

theorem nilIsPre (l : List ContentBlock) : [] <+: l := ⟨l, rfl⟩

theorem consIsPre {α : Type} {l1 l2 : List α} (a : α) (h : l1 <+: l2) :
    (a :: l1) <+: (a :: l2) := by
  obtain ⟨t, ht⟩ := h
  exact ⟨t, by rw [List.cons_append, ht]⟩

theorem mapIsPre {α β : Type} (f : α → β) {l1 l2 : List α} (h : l1 <+: l2) :
    l1.map f <+: l2.map f := by
  obtain ⟨t, ht⟩ := h
  exact ⟨t.map f, by rw [← List.map_append, ht]⟩

theorem dropLastMap {α β : Type} (f : α → β) :
    ∀ l : List α, (l.map f).dropLast = l.dropLast.map f
  | [] => rfl
  | [a] => rfl
  | a :: b :: l => by
    simp only [List.map_cons, List.dropLast_cons₂]
    rw [← List.map_cons f b l, dropLastMap f (b :: l)]

theorem fenceSplit_prefix_ext :
    ∀ (n : Nat) (t : List Char), t.length ≤ n → ∀ s : List Char,
      (fenceSplit t).dropLast <+: fenceSplit (t ++ s)
  | 0, t, h, s => by
    have : t = [] := List.length_eq_zero.mp (Nat.le_zero.mp h)
    subst this
    exact ⟨fenceSplit s, rfl⟩
  | n + 1, t, h, s => by
    rcases hs1 : splitAtFence t with ⟨p, _ | r⟩
    · rw [fenceSplit_eq_none t (by rw [hs1])]
      exact ⟨fenceSplit (t ++ s), rfl⟩
    · rcases hs2 : splitAtFence (r.drop 3) with ⟨mid, _ | r2⟩
      · rw [fenceSplit_eq_open t p r hs1 (by rw [hs2])]
        exact ⟨fenceSplit (t ++ s), rfl⟩
      · have hlen := splitAtFence_len6 t p r mid r2 hs1 hs2
        obtain ⟨u, hu⟩ := startsFence_shape r (splitAtFence_some_join t p r hs1).2
        obtain ⟨v, hv⟩ := startsFence_shape r2
          (splitAtFence_some_join (r.drop 3) mid r2 hs2).2
        have happ1 : splitAtFence (t ++ s) = (p, some (r ++ s)) :=
          splitAtFence_append_some t p r s hs1
        have hdru : (r ++ s).drop 3 = r.drop 3 ++ s := by rw [hu]; rfl
        have happ2 : splitAtFence ((r ++ s).drop 3) = (mid, some (r2 ++ s)) := by
          rw [hdru]
          exact splitAtFence_append_some (r.drop 3) mid r2 s hs2
        have hdrv : (r2 ++ s).drop 3 = r2.drop 3 ++ s := by rw [hv]; rfl
        rw [fenceSplit_eq_step t p r mid r2 hs1 hs2,
          fenceSplit_eq_step (t ++ s) p (r ++ s) mid (r2 ++ s) happ1 happ2, hdrv]
        have hne : fenceSplit (r2.drop 3) ≠ [] := fenceSplitF_ne_nil _ _
        obtain ⟨x, L, hxL⟩ := List.exists_cons_of_ne_nil hne
        rw [hxL, List.dropLast_cons₂, List.dropLast_cons₂, ← hxL]
        exact consIsPre p (consIsPre _
          (fenceSplit_prefix_ext n (r2.drop 3) (by omega) s))

theorem amendScan_of_none : ∀ cs : List Char, (splitAtFence cs).2 = none →
    amendScan cs = (cs, none)
  | [], _ => rfl
  | c :: cs, h => by
    obtain ⟨hf, htail⟩ := (splitAtFence_cons_none c cs).mp h
    have ha : amendFenceAt (c :: cs) = none := by simp [amendFenceAt, hf]
    simp [amendScan, ha, amendScan_of_none cs htail]

theorem amendScan_none_of_all : ∀ cs : List Char,
    (∀ y, y <:+ cs → amendFenceAt y = none) → amendScan cs = (cs, none)
  | [], _ => rfl
  | c :: cs, h => by
    have h0 : amendFenceAt (c :: cs) = none := h _ (List.suffix_refl _)
    have ih := amendScan_none_of_all cs (fun y hy => h y (hy.trans (List.suffix_cons c cs)))
    simp [amendScan, h0, ih]

theorem noPair_suffix (cs y : List Char) (hdead : deadTail cs) (hy : y <:+ cs)
    (hfy : startsFence y = true) : (splitAtFence (y.drop 3)).2 = none := by
  rcases hq : (splitAtFence cs).2 with _ | r
  · have := startsFence_false_of_none y (splitAtFence_none_suffix cs y hq hy)
    rw [hfy] at this; cases this
  · have hcs : splitAtFence cs = ((splitAtFence cs).1, some r) := by rw [← hq]
    have hnone := hdead _ _ hcs
    have hyr : y <:+ r := splitAtFence_suffix_fence cs _ r y hcs hy hfy
    obtain ⟨b, hb⟩ := startsFence_shape r (splitAtFence_some_join cs _ r hcs).2
    have hbnone : (splitAtFence b).2 = none := by
      have hd : r.drop 3 = b := by rw [hb]; rfl
      rw [← hd]; exact hnone
    subst hb
    rcases List.suffix_cons_iff.mp hyr with h1 | hyr2
    · rw [h1]; exact hbnone
    · rcases List.suffix_cons_iff.mp hyr2 with h2 | hyr3
      · rw [h2]
        have hd : ('`' :: '`' :: b : List Char).drop 3 = b.drop 1 := by
          cases b <;> rfl
        rw [hd]
        exact splitAtFence_none_suffix b _ hbnone (List.drop_suffix 1 b)
      · rcases List.suffix_cons_iff.mp hyr3 with h3 | hyr4
        · rw [h3]
          have hd : ('`' :: b : List Char).drop 3 = b.drop 2 := by
            rcases b with _ | ⟨x, _ | ⟨x2, b2⟩⟩ <;> rfl
          rw [hd]
          exact splitAtFence_none_suffix b _ hbnone (List.drop_suffix 2 b)
        · have := startsFence_false_of_none y (splitAtFence_none_suffix b y hbnone hyr4)
          rw [hfy] at this; cases this

theorem amendScan_of_dead (cs p r : List Char) (h1 : splitAtFence cs = (p, some r))
    (h2 : (splitAtFence (r.drop 3)).2 = none) : amendScan cs = (cs, none) := by
  apply amendScan_none_of_all
  intro y hy
  cases hfy : startsFence y with
  | false => simp [amendFenceAt, hfy]
  | true =>
    have hdead : deadTail cs := by
      intro p2 r2 h'
      rw [h1] at h'
      simp only [Prod.mk.injEq, Option.some.injEq] at h'
      rw [← h'.2]; exact h2
    have hnp := noPair_suffix cs y hdead hy hfy
    rcases hq : splitAtFence (y.drop 3) with ⟨m, q⟩
    rw [hq] at hnp
    simp only at hnp
    subst hnp
    simp [amendFenceAt, hfy, hq]

theorem amendScan_of_step :
    ∀ (cs p r mid r2 : List Char), splitAtFence cs = (p, some r) →
      splitAtFence (r.drop 3) = (mid, some r2) →
      amendScan cs = (p, some (fenceChars ++ mid ++ fenceChars, r2.drop 3))
  | [], p, r, mid, r2, h1, _ => by simp [splitAtFence] at h1
  | c :: cs, p, r, mid, r2, h1, h2 => by
    cases hf : startsFence (c :: cs) with
    | true =>
      rw [splitAtFence_cons, if_pos hf] at h1
      simp only [Prod.mk.injEq, Option.some.injEq] at h1
      obtain ⟨hp, hr⟩ := h1
      subst hp; subst hr
      have ha : amendFenceAt (c :: cs) = some (fenceChars ++ mid ++ fenceChars, r2.drop 3) := by
        have h2b : splitAtFence (cs.drop 2) = (mid, some r2) := by simpa using h2
        simp [amendFenceAt, hf, h2b]
      simp [amendScan, ha]
    | false =>
      rw [splitAtFence_cons, if_neg (by simp [hf])] at h1
      simp only [Prod.mk.injEq] at h1
      obtain ⟨hp, hr⟩ := h1
      have hcs : splitAtFence cs = ((splitAtFence cs).1, some r) := by rw [← hr]
      have ih := amendScan_of_step cs (splitAtFence cs).1 r mid r2 hcs h2
      have ha : amendFenceAt (c :: cs) = none := by simp [amendFenceAt, hf]
      simp [amendScan, ha, ih, ← hp]

theorem segmentF_eq_amended :
    ∀ (fuel : Nat) (cs : List Char), cs.length ≤ fuel →
      (fenceSplitF fuel cs).map renderPart = segmentAmendedF fuel cs
  | 0, cs, h => by
    have : cs = [] := List.length_eq_zero.mp (Nat.le_zero.mp h)
    subst this
    rfl
  | fuel + 1, cs, h => by
    rcases hs1 : splitAtFence cs with ⟨p, _ | r⟩
    · have h0 := amendScan_of_none cs (by rw [hs1])
      simp [fenceSplitF, hs1, segmentAmendedF, h0]
    · rcases hs2 : splitAtFence (r.drop 3) with ⟨mid, _ | r2⟩
      · have h0 := amendScan_of_dead cs p r hs1 (by rw [hs2])
        simp [fenceSplitF, hs1, hs2, segmentAmendedF, h0]
      · have hA := amendScan_of_step cs p r mid r2 hs1 hs2
        have hlen := splitAtFence_len6 cs p r mid r2 hs1 hs2
        have ih := segmentF_eq_amended fuel (r2.drop 3) (by omega)
        simp [fenceSplitF, hs1, hs2, segmentAmendedF, hA, ih]

theorem matchFenceAt_none_of_dead (cs y : List Char) (hdead : deadTail cs)
    (hy : y <:+ cs) : matchFenceAt y = none := by
  cases hfy : startsFence y with
  | false => simp [matchFenceAt, hfy]
  | true =>
    have hnp := noPair_suffix cs y hdead hy hfy
    rcases hw : (y.drop 3).dropWhile isWordChar with _ | ⟨c0, rest⟩
    · simp [matchFenceAt, hfy, hw]
    · by_cases hc : c0 = '\n'
      · subst hc
        rcases rest with _ | ⟨b, body2⟩
        · simp [matchFenceAt, hfy, hw]
        · have hsuf : body2 <:+ y.drop 3 := by
            have hdw : (y.drop 3).dropWhile isWordChar <:+ y.drop 3 :=
              List.dropWhile_suffix _
            rw [hw] at hdw
            exact ((List.suffix_cons b body2).trans (List.suffix_cons '\n' _)).trans hdw
          have hb2 : (splitAtFence body2).2 = none :=
            splitAtFence_none_suffix (y.drop 3) body2 hnp hsuf
          rcases hq : splitAtFence body2 with ⟨m, q⟩
          rw [hq] at hb2
          simp only at hb2
          subst hb2
          simp [matchFenceAt, hfy, hw, hq]
      · simp [matchFenceAt, hfy, hw, hc]

theorem innerMatch_none_of_all : ∀ cs : List Char,
    (∀ y, y <:+ cs → matchFenceAt y = none) → innerMatch cs = none
  | [], _ => rfl
  | c :: cs, h => by
    have h0 := h _ (List.suffix_refl _)
    have ih := innerMatch_none_of_all cs (fun y hy => h y (hy.trans (List.suffix_cons c cs)))
    simp [innerMatch, h0, ih]

theorem innerMatch_none_of_dead (cs : List Char) (hdead : deadTail cs) :
    innerMatch cs = none :=
  innerMatch_none_of_all cs (fun y hy => matchFenceAt_none_of_dead cs y hdead hy)

theorem getLastQ_map {α β : Type} (f : α → β) :
    ∀ l : List α, (l.map f).getLast? = l.getLast?.map f
  | [] => rfl
  | [a] => rfl
  | a :: b :: l => by
    rw [List.map_cons, List.map_cons, List.getLast?_cons_cons,
      List.getLast?_cons_cons, ← List.map_cons f b l]
    exact getLastQ_map f (b :: l)

theorem fenceSplit_last_dead :
    ∀ (fuel : Nat) (cs lp : List Char), cs.length ≤ fuel →
      (fenceSplitF fuel cs).getLast? = some lp → deadTail lp
  | 0, cs, lp, h, hl => by
    have : cs = [] := List.length_eq_zero.mp (Nat.le_zero.mp h)
    subst this
    simp [fenceSplitF] at hl
    subst hl
    intro a b hab
    simp [splitAtFence] at hab
  | fuel + 1, cs, lp, h, hl => by
    rcases hs1 : splitAtFence cs with ⟨p, _ | r⟩
    · simp [fenceSplitF, hs1] at hl
      subst hl
      intro a b hab
      rw [hs1] at hab
      simp at hab
    · rcases hs2 : splitAtFence (r.drop 3) with ⟨mid, _ | r2⟩
      · simp [fenceSplitF, hs1, hs2] at hl
        subst hl
        intro a b hab
        rw [hs1] at hab
        simp only [Prod.mk.injEq, Option.some.injEq] at hab
        rw [← hab.2, hs2]
      · have hlen := splitAtFence_len6 cs p r mid r2 hs1 hs2
        have hstep : fenceSplitF (fuel + 1) cs =
            p :: (fenceChars ++ mid ++ fenceChars) :: fenceSplitF fuel (r2.drop 3) := by
          simp [fenceSplitF, hs1, hs2]
        rw [hstep, List.getLast?_cons_cons] at hl
        obtain ⟨x, L, hxL⟩ :=
          List.exists_cons_of_ne_nil (fenceSplitF_ne_nil fuel (r2.drop 3))
        rw [hxL, List.getLast?_cons_cons, ← hxL] at hl
        exact fenceSplit_last_dead fuel (r2.drop 3) lp (by omega) hl

theorem bodyOk_tail (c : Char) (u : List Char) (h : bodyOk (c :: u)) : bodyOk u := by
  unfold bodyOk at h ⊢
  rw [List.cons_append] at h
  exact ((splitAtFence_cons_none c (u ++ ['`', '`'])).mp h).2

theorem splitAtFence_clean :
    ∀ (u X : List Char), bodyOk u →
      splitAtFence (u ++ '`' :: '`' :: '`' :: X) = (u, some ('`' :: '`' :: '`' :: X))
  | [], X, _ => by
    rw [List.nil_append, splitAtFence_cons, if_pos (by simp [startsFence])]
  | c :: u, X, h => by
    have hb := bodyOk_tail c u h
    have hf2 : startsFence ((c :: u) ++ ['`', '`']) = false :=
      startsFence_false_of_none _ h
    have hpad := startsFence_pad_two c u ('`' :: X)
    rw [List.cons_append] at hpad hf2
    rw [List.cons_append] at hpad
    rw [List.cons_append, splitAtFence_cons, if_neg (by simp [hpad, hf2]),
      splitAtFence_clean u X hb]

theorem fenceSplit_clean_step (u m X : List Char) (hu : bodyOk u) (hm : bodyOk m) :
    fenceSplit (u ++ (fenceChars ++ m ++ fenceChars) ++ X) =
      u :: (fenceChars ++ m ++ fenceChars) :: fenceSplit X := by
  have e1 : u ++ (fenceChars ++ m ++ fenceChars) ++ X =
      u ++ '`' :: '`' :: '`' :: (m ++ '`' :: '`' :: '`' :: X) := by
    simp [fenceChars]
  have h1 := splitAtFence_clean u (m ++ '`' :: '`' :: '`' :: X) hu
  have h2 : splitAtFence (('`' :: '`' :: '`' :: (m ++ '`' :: '`' :: '`' :: X)).drop 3) =
      (m, some ('`' :: '`' :: '`' :: X)) := splitAtFence_clean m X hm
  rw [e1, fenceSplit_eq_step _ u _ m _ h1 h2]
  have e2 : fenceChars ++ m ++ fenceChars = '`' :: '`' :: '`' :: (m ++ fenceChars) := by
    simp [fenceChars]
  rw [e2]
  rfl

theorem pushAll_entries : ∀ (l : List ImageState) (h : EditHistory),
    (pushAll h l).entries = h.entries ++ l
  | [], h => by simp [pushAll]
  | img :: l, h => by
    have hstep : pushAll h (img :: l) = pushAll (h.push img) l := rfl
    rw [hstep, pushAll_entries l (h.push img)]
    simp [EditHistory.push]

theorem undoAllF_spec : ∀ (n : Nat) (h : EditHistory), h.entries.length ≤ n →
    (undoAllF n h).current = h.original ∧ (undoAllF n h).canUndo = false
  | 0, h, hn => by
    have hE : h.entries = [] := List.length_eq_zero.mp (Nat.le_zero.mp hn)
    refine ⟨?_, ?_⟩
    · simp [undoAllF, EditHistory.current, EditHistory.original, hE]
    · simp [undoAllF, EditHistory.canUndo, hE]
  | n + 1, h, hn => by
    by_cases hc : h.canUndo = true
    · have hlen : 2 ≤ h.entries.length := by
        unfold EditHistory.canUndo at hc
        simp at hc
        omega
      have hun : h.undo = ⟨h.entries.dropLast⟩ := by simp [EditHistory.undo, hc]
      have hlen2 : h.undo.entries.length ≤ n := by
        rw [hun]
        simp only [List.length_dropLast]
        omega
      have ih := undoAllF_spec n h.undo hlen2
      have horig : h.undo.original = h.original := by
        rw [hun]
        unfold EditHistory.original
        rcases hE : h.entries with _ | ⟨a, _ | ⟨b, l⟩⟩
        · rw [hE] at hlen; simp at hlen
        · rw [hE] at hlen; simp at hlen
        · simp [List.dropLast_cons₂]
      have hstep : undoAllF (n + 1) h = undoAllF n h.undo := by simp [undoAllF, hc]
      exact ⟨by rw [hstep, ih.1, horig], by rw [hstep]; exact ih.2⟩
    · have hc2 : h.canUndo = false := by revert hc; cases h.canUndo <;> simp
      have hstep : undoAllF (n + 1) h = h := by simp [undoAllF, hc2]
      rw [hstep]
      have hle : h.entries.length ≤ 1 := by
        unfold EditHistory.canUndo at hc2
        simp at hc2
        omega
      rcases hE : h.entries with _ | ⟨a, _ | ⟨b, l⟩⟩
      · exact ⟨by simp [EditHistory.current, EditHistory.original, hE],
          by simp [EditHistory.canUndo, hE]⟩
      · exact ⟨by simp [EditHistory.current, EditHistory.original, hE],
          by simp [EditHistory.canUndo, hE]⟩
      · rw [hE] at hle; simp at hle

theorem getLastQ_of_ne_nil : ∀ (l : List ImageState), l ≠ [] → ∃ i, l.getLast? = some i
  | [], h => absurd rfl h
  | [a], _ => ⟨a, rfl⟩
  | a :: b :: l, _ => by
    obtain ⟨i, hi⟩ := getLastQ_of_ne_nil (b :: l) (by simp)
    exact ⟨i, by rw [List.getLast?_cons_cons]; exact hi⟩

theorem setLastRendered_append :
    ∀ (l : List ChatMessage) (m : ChatMessage) (r : Rendered),
      setLastRendered (l ++ [m]) r = l ++ [⟨m.role, r⟩]
  | [], m, r => rfl
  | x :: l, m, r => by
    rw [List.cons_append]
    rcases hE : l ++ [m] with _ | ⟨y, rest⟩
    · exact absurd hE (by simp)
    · have hstep : setLastRendered (x :: y :: rest) r = x :: setLastRendered (y :: rest) r := rfl
      rw [hstep, ← hE, setLastRendered_append l m r]
      simp

theorem streamRun_spec :
    ∀ (chunks : List (List Char)) (l : List ChatMessage) (m : ChatMessage) (acc : List Char),
      streamRun (l ++ [m]) acc chunks =
        (l ++ [if chunks.isEmpty then m
               else ⟨m.role, Rendered.blocks (segment (chunks.foldl (· ++ ·) acc))⟩],
          chunks.foldl (· ++ ·) acc)
  | [], l, m, acc => by simp [streamRun]
  | c :: cs, l, m, acc => by
    have hstep : streamRun (l ++ [m]) acc (c :: cs) =
        streamRun (setLastRendered (l ++ [m]) (Rendered.blocks (segment (acc ++ c))))
          (acc ++ c) cs := rfl
    rw [hstep, setLastRendered_append,
      streamRun_spec cs l ⟨m.role, Rendered.blocks (segment (acc ++ c))⟩ (acc ++ c)]
    rcases cs with _ | ⟨c2, cs2⟩ <;> simp

theorem handleChatSubmit_spec (msgs : List ChatMessage) (message : List Char)
    (chunks : List (List Char)) (errored : Bool) :
    handleChatSubmit msgs message chunks errored =
      (msgs ++ [⟨Role.user, Rendered.text message⟩] ++
        [if chunks.isEmpty then (⟨Role.model, Rendered.text []⟩ : ChatMessage)
         else ⟨Role.model, Rendered.blocks (segment (joinChunks chunks))⟩]) ++
        (if errored then [chatErrorEntry] else []) := by
  unfold handleChatSubmit
  dsimp only
  rw [streamRun_spec chunks (msgs ++ [(⟨Role.user, Rendered.text message⟩ : ChatMessage)])
    (⟨Role.model, Rendered.text []⟩ : ChatMessage) []]
  cases errored <;> cases chunks <;> simp [joinChunks]

theorem isImageLoaded_eq (h : EditHistory) : h.isImageLoaded = h.current.isSome := by
  unfold EditHistory.isImageLoaded EditHistory.current
  rcases hE : h.entries with _ | ⟨a, l⟩
  · rfl
  · obtain ⟨i, hi⟩ := getLastQ_of_ne_nil (a :: l) (by simp)
    rw [hi]
    simp

theorem append_singleton_ne {α : Type} (l : List α) (a : α) : l ++ [a] ≠ l := by
  intro hEq
  have := congrArg List.length hEq
  simp at this

/-! ### Claims -/

/-- C1, counterexample: the split pattern the claim describes (a language tag
and a newline inside the split regex) is not the pattern of the code; on
"\x60\x60\x60x\x60\x60\x60" the code splits out a fenced span and renders it as
a raw block, while the claim's segmentation keeps the whole text as one prose
segment. -/
theorem claim1_counterexample :
    segment ("```x```".toList) ≠ segmentClaim ("```x```".toList) := by decide

/-- C1 (amended): the segmentation splits on minimal complete pairs of
triple-backtick fences with lazily matched arbitrary content and no language
tag or newline requirement; every split-out segment is then rendered by the
source's per-part rule (`renderPart`): a segment starting with a fence becomes
a `Code` block from its first inner full-pattern match (runnable iff the
language case-insensitively equals "html"), or a literal raw block when there
is no inner match; all other segments become prose lines; blocks keep the
original left-to-right order.  Stated as: `segment` equals the independent
leftmost-lazy-match scanner `segmentAmended` built from those words. -/
theorem claim1_amended (t : List Char) : segment t = segmentAmended t :=
  segmentF_eq_amended t.length t le_rfl

/-- C2: the segmentation is stable under extension of the input: every block of
`segment t` other than the final one is reproduced verbatim, at the same
position, in `segment (t ++ s)`. -/
theorem claim2_extension_stable (t s : List Char) :
    (segment t).dropLast <+: segment (t ++ s) := by
  have h := fenceSplit_prefix_ext t.length t le_rfl s
  unfold segment fenceSplit
  rw [dropLastMap]
  exact mapIsPre renderPart h

/-- C3, counterexample: when the trailing part itself begins with the
unterminated fence (text "\x60\x60\x60x"), the code renders it as a single raw
`<pre><code>` block, not as a prose segment of lines, refuting the claim's
"remains part of the trailing prose segment". -/
theorem claim3_counterexample :
    ¬ (∀ t lp : List Char, (fenceSplit t).getLast? = some lp →
        (splitAtFence lp).2.isSome = true →
        (segment t).getLast? = some (ContentBlock.Prose (splitLines lp))) := by
  intro h
  have hx := h ("```x".toList) ("```x".toList) (by decide) (by decide)
  exact absurd hx (by decide)

/-- C3 (amended): a trailing part containing an opened but unclosed fence is
never rendered as a `Code` block; it is kept verbatim as the final block,
rendered literally: as prose lines when the trailing part does not itself begin
with a fence, and as a single literal raw block when it does. -/
theorem claim3_amended (t lp : List Char)
    (h1 : (fenceSplit t).getLast? = some lp)
    (h2 : (splitAtFence lp).2.isSome = true) :
    (segment t).getLast? = some (renderPart lp) ∧
      (∀ l c b, renderPart lp ≠ ContentBlock.Code l c b) ∧
      (startsFence lp = true → renderPart lp = ContentBlock.RawFence lp) ∧
      (startsFence lp = false → renderPart lp = ContentBlock.Prose (splitLines lp)) := by
  have hdead : deadTail lp := fenceSplit_last_dead t.length t lp le_rfl h1
  have hlast : (segment t).getLast? = some (renderPart lp) := by
    unfold segment
    rw [getLastQ_map, h1]
    rfl
  refine ⟨hlast, ?_, ?_, ?_⟩
  · intro l c b
    cases hf : startsFence lp with
    | true =>
      have him := innerMatch_none_of_dead lp hdead
      simp [renderPart, hf, him]
    | false => simp [renderPart, hf]
  · intro hf
    have him := innerMatch_none_of_dead lp hdead
    simp [renderPart, hf, him]
  · intro hf
    simp [renderPart, hf]

/-- C3 witness: on "hi\n\x60\x60\x60 x" (an opened, unclosed fence preceded by
prose) the final block is the literal prose rendering of the trailing part. -/
theorem claim3_amended_witness :
    (segment ("hi\n``` x".toList)).getLast? =
      some (ContentBlock.Prose (splitLines ("hi\n``` x".toList))) := by
  have h := claim3_amended ("hi\n``` x".toList) ("hi\n``` x".toList) (by decide) (by decide)
  rw [h.1, h.2.2.2 (by decide)]

/-- C4: the code has no session tagging, so a late chunk of a superseded stream
(whose per-chunk callback rewrites the last entry of the current log) does
mutate the fresh session's log: applying the chunk update to the new session's
welcome log changes it, contradicting the claim that late chunks leave the new
log unchanged. -/
theorem claim4_late_chunk_bug :
    setLastRendered startChatLog (Rendered.blocks (segment ("old".toList))) ≠
      startChatLog := by decide

/-- C5, counterexample: a blank prompt with an image loaded is rejected
silently (`if (!prompt.trim()) return`), with no user-visible error, refuting
the claim's "fails with a user-visible ValidationError iff no image is loaded
or the prompt is blank". -/
theorem claim5_counterexample :
    ¬ (∀ (s : AppState) (c : Except (List Char) ImageState),
        (((handleGenerate s c).2 = false ∧ (handleGenerate s c).1.errors ≠ s.errors) ↔
          (isBlank s.prompt = true ∨ s.history.isImageLoaded = false)) ∧
        ((isBlank s.prompt = true ∨ s.history.isImageLoaded = false) →
          (handleGenerate s c).1.history = s.history ∧ (handleGenerate s c).2 = false)) := by
  intro h
  have hx := (h ⟨⟨[⟨"m".toList, "A".toList⟩]⟩, [], 0, [], []⟩
    (Except.ok ⟨"m".toList, "B".toList⟩)).1
  exact absurd hx (by decide)

/-- C5 (amended): `handleGenerate` is rejected before invoking the collaborator
iff the prompt is blank or no image is loaded; in every such case the history
is unchanged; the rejection surfaces a user-visible error iff the prompt is
non-blank and no image is loaded — a blank prompt is a silent no-op. -/
theorem claim5_amended (s : AppState) (c : Except (List Char) ImageState) :
    ((handleGenerate s c).2 = false ↔
      (isBlank s.prompt = true ∨ s.history.isImageLoaded = false)) ∧
    ((isBlank s.prompt = true ∨ s.history.isImageLoaded = false) →
      (handleGenerate s c).1.history = s.history ∧
        ((handleGenerate s c).1.errors ≠ s.errors ↔
          (isBlank s.prompt = false ∧ s.history.isImageLoaded = false))) := by
  by_cases hb : isBlank s.prompt = true
  · refine ⟨by simp [handleGenerate, hb], fun _ => ⟨by simp [handleGenerate, hb], ?_⟩⟩
    simp [handleGenerate, hb]
  · have hb2 : isBlank s.prompt = false := by revert hb; cases isBlank s.prompt <;> simp
    rcases hc : s.history.current with _ | i
    · have hl : s.history.isImageLoaded = false := by rw [isImageLoaded_eq, hc]; rfl
      refine ⟨by simp [handleGenerate, hb2, hc, hl], fun _ => ⟨?_, ?_⟩⟩
      · simp [handleGenerate, hb2, hc]
      · simp [handleGenerate, hb2, hc, hl]
    · have hl : s.history.isImageLoaded = true := by rw [isImageLoaded_eq, hc]; rfl
      refine ⟨?_, fun hor => ?_⟩
      · rcases c with img | msg <;> simp [handleGenerate, hb2, hc, hl]
      · rcases hor with hor | hor
        · rw [hor] at hb2; cases hb2
        · rw [hor] at hl; cases hl

/-- C5 witness: with no image loaded and a non-blank prompt, the collaborator
is not invoked and the history is unchanged. -/
theorem claim5_amended_witness :
    (handleGenerate ⟨⟨[]⟩, "fix".toList, 0, [], []⟩ (Except.error "E".toList)).2 = false ∧
    (handleGenerate ⟨⟨[]⟩, "fix".toList, 0, [], []⟩ (Except.error "E".toList)).1.history =
      (⟨⟨[]⟩, "fix".toList, 0, [], []⟩ : AppState).history := by
  have h := claim5_amended ⟨⟨[]⟩, "fix".toList, 0, [], []⟩ (Except.error "E".toList)
  exact ⟨h.1.mpr (Or.inr (by decide)), (h.2 (Or.inr (by decide))).1⟩

/-- C6: past validation, a successful collaborator call pushes exactly the
returned image, clears the prompt and strictly increases the mask-clear signal;
a failed call surfaces the failure message and leaves the history untouched. -/
theorem claim6_success_failure (s : AppState) (img : ImageState) (msg : List Char)
    (hb : isBlank s.prompt = false) (hl : s.history.isImageLoaded = true) :
    ((handleGenerate s (Except.ok img)).2 = true ∧
      (handleGenerate s (Except.ok img)).1.history.entries = s.history.entries ++ [img] ∧
      (handleGenerate s (Except.ok img)).1.prompt = [] ∧
      s.clearMaskSignal < (handleGenerate s (Except.ok img)).1.clearMaskSignal) ∧
    ((handleGenerate s (Except.error msg)).1.history = s.history ∧
      (handleGenerate s (Except.error msg)).1.errors =
        s.errors ++ [if msg = [] then unknownEditMsg else msg] ∧
      (handleGenerate s (Except.error msg)).2 = true) := by
  have hcur : s.history.current.isSome = true := by rw [← isImageLoaded_eq]; exact hl
  rcases hc : s.history.current with _ | i
  · rw [hc] at hcur; cases hcur
  · constructor
    · simp [handleGenerate, hb, hc, EditHistory.push]
    · simp [handleGenerate, hb, hc]

/-- C6 witness: a concrete successful edit appends the returned image. -/
theorem claim6_witness :
    (handleGenerate ⟨⟨[⟨"m".toList, "A".toList⟩]⟩, "edit".toList, 3, [], []⟩
        (Except.ok ⟨"m".toList, "B".toList⟩)).1.history.entries =
      [⟨"m".toList, "A".toList⟩, ⟨"m".toList, "B".toList⟩] := by
  have h := claim6_success_failure ⟨⟨[⟨"m".toList, "A".toList⟩]⟩, "edit".toList, 3, [], []⟩
    ⟨"m".toList, "B".toList⟩ [] (by decide) (by decide)
  rw [h.1.2.1]
  rfl

/-- C7, counterexample: on a mid-stream error the code appends a new model
entry with the fixed error paragraph (log grows by three entries: user,
in-progress model, error entry) instead of replacing the in-progress entry's
blocks, refuting the claim's "blocks are replaced" reading (log of length
`msgs.length + 2` whose last entry shows the error). -/
theorem claim7_counterexample :
    ¬ (∀ (msgs : List ChatMessage) (message : List Char) (chunks : List (List Char)),
        (handleChatSubmit msgs message chunks true).length = msgs.length + 2 ∧
        (handleChatSubmit msgs message chunks true).getLast? =
          some ⟨Role.model, Rendered.errorText chatErrText⟩) := by
  intro h
  have hx := (h [] ("hi".toList) [("a".toList)]).1
  exact absurd hx (by decide)

/-- C7 (amended): on a mid-stream error a fixed error entry is appended after
the in-progress entry; everything already rendered is kept — the errored run
equals the clean run plus the error entry, and the clean run is the original
log plus the user entry plus the in-progress model entry holding the
segmentation of all received text; the log stays an ordinary log, so the
session keeps accepting submissions. -/
theorem claim7_amended (msgs : List ChatMessage) (message : List Char)
    (chunks : List (List Char)) :
    handleChatSubmit msgs message chunks true =
      handleChatSubmit msgs message chunks false ++ [chatErrorEntry] ∧
    handleChatSubmit msgs message chunks false =
      msgs ++ [⟨Role.user, Rendered.text message⟩] ++
        [if chunks.isEmpty then (⟨Role.model, Rendered.text []⟩ : ChatMessage)
         else ⟨Role.model, Rendered.blocks (segment (joinChunks chunks))⟩] := by
  have ht := handleChatSubmit_spec msgs message chunks true
  have hf := handleChatSubmit_spec msgs message chunks false
  constructor
  · rw [ht, hf]; simp
  · rw [hf]; simp

/-- C8: the edit history invariants: derived `original`/`current`/`canUndo`
agree with the spec invariant for every history; after `reset img0` and any
sequence of pushes, `original` is `img0` and `current` is the last pushed
image; `undo` is a no-op when `canUndo` is false; and repeating `undo` until
`canUndo` is false leaves `current = original`. -/
theorem claim8_edit_history (img0 : ImageState) (imgs : List ImageState) (h : EditHistory) :
    (h.entries ≠ [] → h.original = h.entries.head?) ∧
    h.current = h.entries.getLast? ∧
    (h.canUndo = true ↔ 1 < h.entries.length) ∧
    (pushAll (EditHistory.reset img0) imgs).original = some img0 ∧
    (pushAll (EditHistory.reset img0) imgs).current = (img0 :: imgs).getLast? ∧
    (h.canUndo = false → h.undo = h) ∧
    (undoAll h).current = h.original ∧
    (undoAll h).canUndo = false := by
  refine ⟨fun _ => rfl, rfl, ?_, ?_, ?_, ?_, ?_, ?_⟩
  · simp [EditHistory.canUndo]
  · unfold EditHistory.original
    rw [pushAll_entries]
    simp [EditHistory.reset]
  · unfold EditHistory.current
    rw [pushAll_entries]
    rfl
  · intro hc
    simp [EditHistory.undo, hc]
  · exact (undoAllF_spec h.entries.length h le_rfl).1
  · exact (undoAllF_spec h.entries.length h le_rfl).2

/-- C8 witness: undoing a concrete two-entry history to exhaustion restores the
original, and `undo` on an empty history is a no-op. -/
theorem claim8_witness :
    (undoAll ⟨[⟨"m".toList, "A".toList⟩, ⟨"m".toList, "B".toList⟩]⟩).current =
      some ⟨"m".toList, "A".toList⟩ ∧
    (⟨[]⟩ : EditHistory).undo = ⟨[]⟩ := by
  have h := claim8_edit_history ⟨"m".toList, "A".toList⟩ []
    ⟨[⟨"m".toList, "A".toList⟩, ⟨"m".toList, "B".toList⟩]⟩
  have h2 := claim8_edit_history ⟨"m".toList, "A".toList⟩ [] (⟨[]⟩ : EditHistory)
  refine ⟨?_, h2.2.2.2.2.2.1 (by decide)⟩
  rw [h.2.2.2.2.2.2.1]
  rfl

/-- C9: `handleGenerateMultiView` requires an image loaded (otherwise it is a
no-op), never mutates the edit history or the prompt, and hands the
collaborator's image list to the display modal exactly as received (no
reordering, no validation of any kind beyond passing it through). -/
theorem claim9_multiview (s : AppState) (imgs : List ImageState) (msg : List Char)
    (hl : s.history.isImageLoaded = true) :
    (handleGenerateMultiView s (Except.ok imgs)).multiViewImages = imgs ∧
    (handleGenerateMultiView s (Except.ok imgs)).history = s.history ∧
    (handleGenerateMultiView s (Except.ok imgs)).prompt = s.prompt ∧
    (handleGenerateMultiView s (Except.error msg)).history = s.history ∧
    (∀ s2 : AppState, s2.history.isImageLoaded = false →
      ∀ c, handleGenerateMultiView s2 c = s2) := by
  have hcur : s.history.current.isSome = true := by rw [← isImageLoaded_eq]; exact hl
  rcases hc : s.history.current with _ | i
  · rw [hc] at hcur; cases hcur
  · refine ⟨by simp [handleGenerateMultiView, hc], by simp [handleGenerateMultiView, hc],
      by simp [handleGenerateMultiView, hc], by simp [handleGenerateMultiView, hc], ?_⟩
    intro s2 h2 c
    have hnone : s2.history.current = none := by
      rw [isImageLoaded_eq] at h2
      rcases hc2 : s2.history.current with _ | j
      · rfl
      · rw [hc2] at h2; cases h2
    simp [handleGenerateMultiView, hnone]

/-- C9 witness: a concrete four-image result in the fixed order
front/side/rear/overhead is passed through unchanged. -/
theorem claim9_witness :
    (handleGenerateMultiView ⟨⟨[⟨"m".toList, "X".toList⟩]⟩, [], 0, [], []⟩
        (Except.ok [⟨"m".toList, "front".toList⟩, ⟨"m".toList, "side".toList⟩,
          ⟨"m".toList, "rear".toList⟩, ⟨"m".toList, "overhead".toList⟩])).multiViewImages =
      [⟨"m".toList, "front".toList⟩, ⟨"m".toList, "side".toList⟩,
        ⟨"m".toList, "rear".toList⟩, ⟨"m".toList, "overhead".toList⟩] :=
  (claim9_multiview ⟨⟨[⟨"m".toList, "X".toList⟩]⟩, [], 0, [], []⟩
    [⟨"m".toList, "front".toList⟩, ⟨"m".toList, "side".toList⟩,
      ⟨"m".toList, "rear".toList⟩, ⟨"m".toList, "overhead".toList⟩] [] (by decide)).1

/-- C10: whenever a complete fenced span abuts the start of the text (take
`u = []`), the end of the text (take `X = []`, since `segment [] = [Prose [[]]]`),
or another complete fenced span, the capturing split keeps the empty string
between the matches, so an empty prose block (a single empty line) is emitted
at the boundary; in particular two back-to-back complete fences always have
`Prose [[]]` between them. -/
theorem claim10_adjacent_fences (u m1 m2 X : List Char)
    (hu : bodyOk u) (h1 : bodyOk m1) (h2 : bodyOk m2) :
    segment (u ++ (fenceChars ++ m1 ++ fenceChars) ++
        ((fenceChars ++ m2 ++ fenceChars) ++ X)) =
      renderPart u :: renderPart (fenceChars ++ m1 ++ fenceChars) ::
        ContentBlock.Prose [[]] :: renderPart (fenceChars ++ m2 ++ fenceChars) ::
          segment X := by
  unfold segment
  rw [fenceSplit_clean_step u m1 ((fenceChars ++ m2 ++ fenceChars) ++ X) hu h1]
  rw [show (fenceChars ++ m2 ++ fenceChars) ++ X =
    [] ++ (fenceChars ++ m2 ++ fenceChars) ++ X from by simp]
  rw [fenceSplit_clean_step [] m2 X (by decide) h2]
  simp only [List.map_cons]
  rw [show renderPart [] = ContentBlock.Prose [[]] from rfl]

/-- C10 witness: two concrete back-to-back fences inside surrounding text have
an empty prose block between them, and empty prose blocks at the outer
boundaries of the fenced region. -/
theorem claim10_witness :
    segment (("abc".toList) ++ (fenceChars ++ "html\nX".toList ++ fenceChars) ++
        ((fenceChars ++ "\nY".toList ++ fenceChars) ++ "tail".toList)) =
      [ContentBlock.Prose ["abc".toList],
        ContentBlock.Code "html".toList "X".toList true,
        ContentBlock.Prose [[]],
        ContentBlock.Code [] "Y".toList false,
        ContentBlock.Prose ["tail".toList]] := by
  rw [claim10_adjacent_fences ("abc".toList) ("html\nX".toList) ("\nY".toList)
    ("tail".toList) (by decide) (by decide) (by decide)]
  decide

end App
